import Mathlib

/-!
Shallow embedding of the fa-archiver Python client library: the stream
reassembly buffer (`connection.read_block`), the subscription handshake and
timestamp bookkeeping (`subscription`), the channel-mask encoders
(`format_mask`, `normalise_mask`, `count_mask`), the rolling display buffer
and its monitor (`viewer/buffer.py`), and the windowed power-spectrum
estimator (`spectrum/spectrum.py`, class `Compute`).

Python byte strings are modelled as `List Nat` (one entry per byte), text as
`List Char`, and numpy floating-point arrays as lists over `ℚ` (the claims
under study are structural, not about rounding).  Arrays of shape
`(n, id_count, 2)` are modelled one column at a time: every numpy operation
involved acts independently along axis 0, so a single `(channel, axis)`
column carries the whole content of each claim.
-/

namespace FaArchiver

/-! ## Rolling buffer (src/python/viewer/buffer.py, class `buffer`)

The buffer holds a fixed-length array of two-axis samples.  A sample is one
`(x, y)` pair of positions. -/

abbrev Sample := ℚ × ℚ

/-- Python slice `a[-size:]` (numpy semantics): for `size = 0` the slice
bound `-0` is `0`, so the whole array is returned; otherwise the last
`size` elements (all of them when `size ≥ len`). -/
def npTail {α : Type} (a : List α) (size : Nat) : List α :=
  if size = 0 then a else a.drop (a.length - size)

/-- `buffer.write(block)`: `self.buffer[:-blen] = self.buffer[blen:]` then
`self.buffer[-blen:] = block`.  Under the source's implicit precondition
`0 < len(block) <= buffer_size` this is: drop the oldest `blen` samples and
append the block at the tail. -/
def buffer_write (buf block : List Sample) : List Sample :=
  buf.drop block.length ++ block

/-- `buffer.read(size)`: `return self.buffer[-size:]`. -/
def buffer_read (buf : List Sample) (size : Nat) : List Sample :=
  npTail buf size

/-- `buffer.__init__(buffer_size)` / `buffer.reset()`: a zero-filled buffer. -/
def buffer_reset (buffer_size : Nat) : List Sample :=
  List.replicate buffer_size ((0 : ℚ), (0 : ℚ))

/-! ## Stream reassembly (src/python/falib.py and src/python/falib/falib.py,
`connection.read_block`)

Bytes are `Nat` entries; the network is a list of chunks, each chunk the
return value of one successful `connection.recv` call.  `recv` raises `EOF`
when the peer has closed (an empty chunk) and `socket.timeout` when no data
arrives; both failure modes are modelled by `none`, with an exhausted chunk
list standing for "no further data ever arrives".

`read_block` keeps the loop state of the source: `rx` is the portion of
`result` filled so far, `buf` the current pending buffer.  The source
increments `rx` by the whole chunk length even when only part is copied, and
then breaks; the model reflects the same control flow with `rx` as a list. -/

/-- The `while True` loop of `connection.read_block`, with `recv` inlined at
its two call sites (structural recursion on the remaining chunk list).
Returns `(result, new self.buf, remaining chunks)` or `none` when `recv`
raises before `length` bytes have been assembled. -/
def read_block_loop (length : Nat) :
    List (List Nat) → List Nat → List Nat →
      Option (List Nat × List Nat × List (List Nat))
  | [], rx, buf =>
      if buf.length = 0 then none
      else if rx.length + buf.length ≤ length then
        if length ≤ rx.length + buf.length then some (rx ++ buf, [], [])
        else none
      else
        some (rx ++ buf.take (length - rx.length),
          buf.drop (length - rx.length), [])
  | c :: cs, rx, buf =>
      if buf.length = 0 then
        if c = [] then none else read_block_loop length cs rx c
      else if rx.length + buf.length ≤ length then
        if length ≤ rx.length + buf.length then some (rx ++ buf, [], c :: cs)
        else if c = [] then none
        else read_block_loop length cs (rx ++ buf) c
      else
        some (rx ++ buf.take (length - rx.length),
          buf.drop (length - rx.length), c :: cs)

/-- `connection.read_block(length)` starting from leftover buffer
`self.buf = leftover` with `chunks` the data the socket will deliver. -/
def read_block (length : Nat) (leftover : List Nat)
    (chunks : List (List Nat)) :
    Option (List Nat × List Nat × List (List Nat)) :=
  read_block_loop length chunks [] leftover

/-! ## Subscription timestamp (src/python/falib.py, `subscription.read`)

`subscription.read(samples)` updates the running sample counter with
`self.t0 = (self.t0 + samples) & 0xffffffff` before reading the data block. -/

/-- The new value of `self.t0` after `subscription.read(samples)`:
`(t0 + samples) & 0xffffffff`. -/
def read_t0_update (t0 samples : Nat) : Nat :=
  (t0 + samples) % 2 ^ 32

/-! ## Subscription handshake (src/python/falib/falib.py,
`subscription.__init__`)

After sending the subscribe command the client runs
```
c = self.recv(1)
if c != chr(0):
    raise self.Error((c + self.recv())[:-1])    # Discard trailing \n
```
`status` is the first byte; `rest` is the chunk the follow-up `recv()`
returns (the error message including its trailing newline). -/

/-- The handshake check of `subscription.__init__`: success on status byte
zero, otherwise the raised error carries `(c + self.recv())[:-1]`. -/
def subscription_handshake (status : Nat) (rest : List Nat) :
    Except (List Nat) Unit :=
  if status = 0 then Except.ok () else Except.error ((status :: rest).dropLast)

/-! ## Stream monitor (src/python/viewer/buffer.py, class `monitor`)

The background task `monitor.__monitor` is modelled as a trace of the
callbacks it issues.  Its inputs are the successive outcomes of
`self.subscription.read(self.update_size)[:,0,:]`: `Except.ok block` for a
successful read, `Except.error msg` for a raised exception whose string is
`msg`.  A finite input list ending without an error models a run in which
`stop()` set `self.running = False` after the last listed read, so the
`while self.running` check exits with `stop_reason` still `'Stopped'`.
`subscription.close()` is the `close` event; `self.on_event`/`self.on_eof`
are the `data`/`eof` events.  (The `data_ready` counter is incremented and
decremented symmetrically around `on_event` and read nowhere, so it has no
observable effect on the trace.) -/

abbrev Block := List Sample

inductive MonitorEvent : Type where
  | connect : MonitorEvent
  | data : List Sample → MonitorEvent
  | close : MonitorEvent
  | eof : String → MonitorEvent
  deriving DecidableEq

/-- `monitor.read()`: `1e-3 * self.buffer.read(self.notify_size)` (the
scale factor `1e-3` is the rational `1/1000`). -/
def monitor_read (buf : List Sample) (notify_size : Nat) : List Sample :=
  (buffer_read buf notify_size).map fun s => (1 / 1000 * s.1, 1 / 1000 * s.2)

/-- The `while self.running` loop of `monitor.__monitor`, as the events it
emits: on a successful read, write the block to the buffer and emit
`on_event(self.read())`; on a failed read record the exception string and
leave the loop; after the loop, `close` then `on_eof(stop_reason)`. -/
def monitor_loop (notify_size : Nat) (buf : List Sample) :
    List (Except String Block) → List MonitorEvent
  | [] => [MonitorEvent.close, MonitorEvent.eof "Stopped"]
  | Except.error msg :: _ => [MonitorEvent.close, MonitorEvent.eof msg]
  | Except.ok block :: rest =>
      MonitorEvent.data (monitor_read (buffer_write buf block) notify_size) ::
        monitor_loop notify_size (buffer_write buf block) rest

/-- The whole of `monitor.__monitor`: `on_connect()` first, then the loop. -/
def monitor_trace (notify_size : Nat) (buf : List Sample)
    (reads : List (Except String Block)) : List MonitorEvent :=
  MonitorEvent.connect :: monitor_loop notify_size buf reads

/-- The final value of the loop's `stop_reason` local: the message of the
first failing read, or `'Stopped'` when no read fails. -/
def monitor_stop_reason : List (Except String Block) → String
  | [] => "Stopped"
  | Except.error msg :: _ => msg
  | Except.ok _ :: rest => monitor_stop_reason rest

/-- The data events the loop emits over a run of successful reads. -/
def monitor_data_events (notify_size : Nat) :
    List Sample → List Block → List MonitorEvent
  | _, [] => []
  | buf, b :: bs =>
      MonitorEvent.data (monitor_read (buffer_write buf b) notify_size) ::
        monitor_data_events notify_size (buffer_write buf b) bs

def MonitorEvent.isEof : MonitorEvent → Bool
  | MonitorEvent.eof _ => true
  | _ => false

/-! ## Spectrum estimator (src/python/spectrum/spectrum.py, class `Compute`)

The estimator works on arrays of shape `(n, id_count, 2)`; every operation
(`concatenate`, window broadcast, `fft(axis=0)`, `ff[0] = 0`, `abs ** 2`,
`cumsum(axis=0)`, fancy-indexing by `bins`, `diff(axis=0)`, `/ bin_scale`)
acts independently along axis 0, so one `(channel, axis)` column is
modelled: a `List ℚ`.  `numpy.fft.fft` and the complex values it returns
are external to the program: the transform is a parameter
`fft : List ℚ → List (ℚ × ℚ)` producing `(re, im)` pairs, and the
precomputed half-cosine window (`numpy.cos(numpy.linspace(-π/2, π/2, 2H))`,
irrational-valued) is likewise passed in as a precomputed list. -/

/-- `numpy.searchsorted(a, v)` with the default `side='left'` on a sorted
axis `a`: the number of leading elements strictly below `v`. -/
def searchsorted (a : List ℚ) (v : ℚ) : Nat :=
  (a.takeWhile fun x => decide (x < v)).length

/-- The FFT bin-frequency axis of `Compute.__init__`:
`0.5 * F_S * numpy.arange(half_sample_size) / half_sample_size`. -/
def fft_freqs (F_S : ℚ) (half_sample_size : Nat) : List ℚ :=
  (List.range half_sample_size).map
    fun i : Nat => 1 / 2 * F_S * (i : ℚ) / (half_sample_size : ℚ)

/-- `self.bins` of `Compute.__init__`:
`numpy.concatenate(([0], fft_freqs.searchsorted(frequencies)))`. -/
def freq_bins (F_S : ℚ) (half_sample_size : Nat)
    (frequencies : List ℚ) : List Nat :=
  0 :: frequencies.map fun f => searchsorted (fft_freqs F_S half_sample_size) f

/-- `numpy.diff` along the leading axis. -/
def diff (l : List ℚ) : List ℚ :=
  List.zipWith (fun a b => b - a) l l.tail

/-- `numpy.cumsum` along the leading axis. -/
def cumsum : List ℚ → List ℚ
  | [] => []
  | x :: xs => x :: (cumsum xs).map (x + ·)

/-- `numpy.abs(z) ** 2` for a complex entry `z = (re, im)`. -/
def normSq (z : ℚ × ℚ) : ℚ :=
  z.1 ^ 2 + z.2 ^ 2

/-- The state held by `spectrum.Compute` (one column). -/
structure Compute : Type where
  N2 : ℚ
  bins : List Nat
  fft_length : Nat
  bin_scale : List ℚ
  window : List ℚ
  last : List ℚ
  deriving DecidableEq

/-- `Compute.__init__(half_sample_size, id_count, frequencies)`.  `window`
stands for the precomputed `numpy.cos(numpy.linspace(-pi/2, pi/2, 2H))`
values (externally computed, irrational).  `self.bin_scale` fancy-indexes
`fft_freqs` at `self.bins`; numpy raises `IndexError` there when a bin
equals `len(fft_freqs)`, which the out-of-range analysis of the bins
covers separately, so the model reads out-of-range entries as `0`. -/
def Compute.init (F_S : ℚ) (half_sample_size : Nat)
    (frequencies window : List ℚ) : Compute :=
  { N2 := (2 * (half_sample_size : ℚ)) ^ 2
    bins := freq_bins F_S half_sample_size frequencies
    fft_length := (freq_bins F_S half_sample_size frequencies).getLast?.getD 0 + 1
    bin_scale := diff ((freq_bins F_S half_sample_size frequencies).map fun b =>
      (fft_freqs F_S half_sample_size).getD b 0)
    window := window
    last := List.replicate half_sample_size 0 }

/-- `Compute.compute(data)` from the source:
```
block = numpy.concatenate((self.last, data)) * self.window
self.last = data
ff = numpy.fft.fft(block, axis = 0)[:self.fft_length]
ff[0] = 0
p = numpy.abs(ff) ** 2
s = 4 * p.cumsum(axis = 0)[self.bins] / self.N2
return s[1:], numpy.diff(s, axis = 0) / self.bin_scale
```
returning the pair of outputs together with the updated state. -/
def Compute.compute (fft : List ℚ → List (ℚ × ℚ)) (st : Compute)
    (data : List ℚ) : (List ℚ × List ℚ) × Compute :=
  let block := (st.last ++ data).zipWith (· * ·) st.window
  let ff := ((fft block).take st.fft_length).set 0 ((0 : ℚ), (0 : ℚ))
  let p := ff.map normSq
  let s := st.bins.map fun b => 4 * (cumsum p).getD b 0 / st.N2
  ((s.drop 1, (diff s).zipWith (· / ·) st.bin_scale),
    { st with last := data })

/-- The claim's description of `compute`: `s` is `4` times the cumulative
sum over the whole transform of the squared magnitudes with the DC term
zeroed, sampled at the bin boundaries, divided by `(2H)²` (the state's
`N2`); the return value is `(s[1:], diff(s) / bin_width)`; the input
half-block is stored as `last`.  (No truncation of the transform to
`fft_length` appears in the spec's wording.) -/
def Compute.compute_spec (fft : List ℚ → List (ℚ × ℚ)) (st : Compute)
    (data : List ℚ) : (List ℚ × List ℚ) × Compute :=
  let block := (st.last ++ data).zipWith (· * ·) st.window
  let p := ((fft block).set 0 ((0 : ℚ), (0 : ℚ))).map normSq
  let s := st.bins.map fun b => 4 * (cumsum p).getD b 0 / st.N2
  ((s.drop 1, (diff s).zipWith (· / ·) st.bin_scale),
    { st with last := data })

/-! ## Channel-mask encoding, range-list variant (src/python/falib/falib.py,
`format_mask`)

Python text is `List Char`.  The decimal rendering of `'%d' % n` is
`decChars` (fuel-based long division, the standard digit algorithm); the
range grouping loop with its `None` sentinel is `ranges_loop`; `','.join`
is `joinComma`. -/

/-- The character of the decimal digit `d < 10`. -/
def digitChar (d : Nat) : Char :=
  Char.ofNat (48 + d)

/-- Decimal digits of `n`, most significant first, by long division
(fuel at least the digit count suffices; `decChars` supplies `n + 1`). -/
def decCharsCore : Nat → Nat → List Char
  | 0, _ => []
  | fuel + 1, n =>
      if n < 10 then [digitChar n]
      else decCharsCore fuel (n / 10) ++ [digitChar (n % 10)]

/-- `'%d' % n`: the decimal rendering of `n`. -/
def decChars (n : Nat) : List Char :=
  decCharsCore (n + 1) n

/-- One entry of the `ranges` list: `'%d' % last` when the range is a
single id, `'%d-%d' % (first, last)` otherwise. -/
def render_range (first last : Nat) : List Char :=
  if last = first then decChars last
  else decChars first ++ '-' :: decChars last

/-- The `for id in mask[1:] + [None]` loop of `format_mask`: `id == last+1`
extends the current range, anything else (including the sentinel, handled
by the `[]` case) closes it. -/
def ranges_loop (first last : Nat) : List Nat → List (List Char)
  | [] => [render_range first last]
  | id :: rest =>
      if id = last + 1 then ranges_loop first id rest
      else render_range first last :: ranges_loop id id rest

/-- `','.join(ranges)`. -/
def joinComma : List (List Char) → List Char
  | [] => []
  | [t] => t
  | t :: ts => t ++ ',' :: joinComma ts

/-- `format_mask(mask)`: normalises the id list with
`sorted(list(set(mask)))` and returns the count of distinct ids together
with the comma-separated range-list encoding.  (On an empty mask the
source raises `IndexError` at `mask[0]`; the model returns `(0, "")`.) -/
def format_mask (mask : List Nat) : Nat × List Char :=
  match mask.toFinset.sort (· ≤ ·) with
  | [] => (0, [])
  | m0 :: rest => ((m0 :: rest).length, joinComma (ranges_loop m0 m0 rest))

/-- Split on a separator character, Python `str.split(sep)` style:
`splitOnChar ',' "a,,b" = ["a", "", "b"]`. -/
def splitOnChar (sep : Char) : List Char → List (List Char)
  | [] => [[]]
  | x :: xs =>
      match splitOnChar sep xs with
      | [] => [[]]
      | t :: ts => if x = sep then [] :: t :: ts else (x :: t) :: ts

def isDigitChar (c : Char) : Bool :=
  decide (48 ≤ c.toNat) && decide (c.toNat ≤ 57)

/-- Modelled from the spec: decimal parsing for the server-side mask
decoder, which is not part of the Python client sources under `src/`. -/
def parseDec (t : List Char) : Option Nat :=
  if !t.isEmpty && t.all isDigitChar then
    some (t.foldl (fun a c => 10 * a + (c.toNat - 48)) 0)
  else none

/-- Modelled from the spec: one token of the range list — either a single
id `"7"` or an inclusive range `"first-last"`. -/
def parseToken (t : List Char) : Option (List Nat) :=
  match splitOnChar '-' t with
  | [a] => (parseDec a).map fun n => [n]
  | [a, b] =>
      match parseDec a, parseDec b with
      | some x, some y => some (List.range' x (y + 1 - x))
      | _, _ => none
  | _ => none

/-- Modelled from the spec: parse every range token, failing when any
token is malformed. -/
def parseTokens : List (List Char) → Option (List (List Nat))
  | [] => some []
  | t :: ts =>
      match parseToken t, parseTokens ts with
      | some y, some ys => some (y :: ys)
      | _, _ => none

/-- Modelled from the spec: the server-side decoder of the comma-separated
range-list mask encoding (`"first-last,id,..."`), absent from `src/`
(only the client encoder appears there); it recovers the encoded set of
channel ids. -/
def decode_mask (s : List Char) : Option (List Nat) :=
  (parseTokens (splitOnChar ',' s)).map List.flatten

/-! ## Channel-mask encoding, hex-bitmask variant (src/python/falib.py,
`normalise_mask` / `format_mask` / `count_mask`) -/

namespace Hex

/-- The loop body of `normalise_mask`: `nmask[i // 8] |= 1 << (i % 8)`. -/
def set_bit (nm : List Nat) (i : Nat) : List Nat :=
  nm.set (i / 8) (nm.getD (i / 8) 0 ||| 1 <<< (i % 8))

/-- `normalise_mask(mask)`: a 32-byte little-endian bit array with bit `i`
set for each id `i` in the mask, built over a `zeros(256 / 8)` array. -/
def normalise_mask (mask : List Nat) : List Nat :=
  mask.foldl set_bit (List.replicate 32 0)

/-- The uppercase hexadecimal digit character of `d < 16`. -/
def hexDigit (d : Nat) : Char :=
  Char.ofNat (if d < 10 then 48 + d else 55 + d)

/-- `'%02X' % x` for a byte `x < 256`. -/
def hexByte (x : Nat) : List Char :=
  [hexDigit (x / 16), hexDigit (x % 16)]

/-- `format_mask(mask)`:
`''.join(['%02X' % x for x in reversed(mask)])` — the 64-hex-digit
encoding of a normalised 32-byte mask, most significant byte first. -/
def format_mask (nmask : List Nat) : List Char :=
  (nmask.reverse.map hexByte).flatten

/-- The bit test `mask[i // 8] & (1 << (i % 8))` of `count_mask`. -/
def test_bit (nmask : List Nat) (i : Nat) : Bool :=
  nmask.getD (i / 8) 0 &&& 1 <<< (i % 8) != 0

/-- `count_mask(mask)`: the number of set bits among the 256 positions. -/
def count_mask (nmask : List Nat) : Nat :=
  ((List.range 256).filter fun i => test_bit nmask i).length

/-- Modelled from the spec: one hexadecimal digit of the server-side
bitmask decoder (not in `src/`). -/
def parseHexDigit (c : Char) : Option Nat :=
  if 48 ≤ c.toNat ∧ c.toNat ≤ 57 then some (c.toNat - 48)
  else if 65 ≤ c.toNat ∧ c.toNat ≤ 70 then some (c.toNat - 55)
  else none

/-- Modelled from the spec: hex-pair parsing of the server-side bitmask
decoder (not in `src/`). -/
def parseHexPairs : List Char → Option (List Nat)
  | [] => some []
  | [_] => none
  | c1 :: c2 :: rest =>
      match parseHexDigit c1, parseHexDigit c2, parseHexPairs rest with
      | some d1, some d2, some bs => some ((16 * d1 + d2) :: bs)
      | _, _, _ => none

/-- Modelled from the spec: the server-side decoder of the 64-hex-digit
bitmask encoding, absent from `src/`; it reads the bytes most significant
first, restores the little-endian byte array, and recovers the set of ids
whose bit is set. -/
def decode_mask (s : List Char) : Option (List Nat) :=
  (parseHexPairs s).map fun bytes =>
    (List.range 256).filter fun i => test_bit bytes.reverse i

end Hex

/-! ## Claim C2 -/

/-- C2: for a buffer of capacity `C` and a block with `0 < k ≤ C`, after
`write(block)` we have `read(C)[-k:] == block`, `read(C)[:-k]` equals the
prior content shifted left by `k`, and after `reset()` `read(C)` is all
zeros. -/
theorem buffer_write_read_spec (buf block : List Sample)
    (hk : 0 < block.length) (hkC : block.length ≤ buf.length) :
    (buffer_read (buffer_write buf block) buf.length).drop
        (buf.length - block.length) = block ∧
    (buffer_read (buffer_write buf block) buf.length).take
        (buf.length - block.length) = buf.drop block.length ∧
    buffer_read (buffer_reset buf.length) buf.length =
      List.replicate buf.length ((0 : ℚ), (0 : ℚ)) := by
  have hC : buf.length ≠ 0 := by omega
  have hwlen : (buffer_write buf block).length = buf.length := by
    simp [buffer_write]
    omega
  have hread : buffer_read (buffer_write buf block) buf.length =
      buffer_write buf block := by
    simp [buffer_read, npTail, hC, hwlen]
  have hdlen : (buf.drop block.length).length = buf.length - block.length := by
    simp
  refine ⟨?_, ?_, ?_⟩
  · rw [hread, buffer_write, ← hdlen, List.drop_left]
  · rw [hread, buffer_write, ← hdlen, List.take_left]
  · simp [buffer_read, npTail, buffer_reset, hC]

/-- Witness for C2 at a concrete buffer and block. -/
theorem buffer_write_read_spec_witness :
    (buffer_read (buffer_write [(1, 2), (3, 4), (5, 6)] [(7, 8)]) 3).drop 2
        = [((7 : ℚ), (8 : ℚ))] ∧
    (buffer_read (buffer_write [(1, 2), (3, 4), (5, 6)] [(7, 8)]) 3).take 2
        = [((3 : ℚ), (4 : ℚ)), (5, 6)] ∧
    buffer_read (buffer_reset 3) 3 = List.replicate 3 ((0 : ℚ), (0 : ℚ)) :=
  buffer_write_read_spec [(1, 2), (3, 4), (5, 6)] [(7, 8)]
    (by decide) (by decide)

/-! ## Claim C4

The claim states that `read(samples)` advances `t0` by
`samples * decimation_factor (mod 2^32)` for every `decimation_factor ≥ 1`.
The code advances `t0` by `samples` alone: with `t0 = 0`, `samples = 3` and
`decimation_factor = 10` the code yields `3`, not `30`. -/

/-- C4 counterexample: at `t0 = 0`, `samples = 3`, `decimation_factor = 10`
(which satisfies the claim's `decimation_factor ≥ 1`), the code's new `t0`
differs from the claimed `(samples * decimation_factor) mod 2^32`. -/
theorem read_t0_update_not_decimated :
    1 ≤ 10 ∧ read_t0_update 0 3 ≠ (0 + 3 * 10) % 2 ^ 32 := by
  constructor
  · decide
  · intro h
    simp [read_t0_update] at h

/-- C4 amended: `read(samples)` advances `t0` by exactly
`samples mod 2^32` (the code does not multiply by the decimation factor).
Stated as: the modular difference between the new and old counter equals
`samples mod 2^32`. -/
theorem read_t0_update_advance (t0 samples : Nat) (h : t0 < 2 ^ 32) :
    (read_t0_update t0 samples + (2 ^ 32 - t0)) % 2 ^ 32 = samples % 2 ^ 32 := by
  simp only [read_t0_update]
  omega

/-- Witness for C4's amended theorem at `t0 = 5`, `samples = 7`. -/
theorem read_t0_update_advance_witness :
    (read_t0_update 5 7 + (2 ^ 32 - 5)) % 2 ^ 32 = 7 % 2 ^ 32 :=
  read_t0_update_advance 5 7 (by norm_num)

/-! ## Claim C1 -/

/-- Invariant of the `read_block` loop: with `rx` bytes already collected,
the loop returns `rx` extended by the next `length - rx.length` bytes of the
remaining stream `buf ++ chunks.flatten`, and the new connection state holds
exactly the rest of the stream. -/
theorem read_block_loop_spec (length : Nat) :
    ∀ (chunks : List (List Nat)) (rx buf : List Nat),
      (∀ c ∈ chunks, c ≠ []) →
      rx.length ≤ length →
      length ≤ rx.length + buf.length + (chunks.map List.length).sum →
      (rx.length < length ∨ buf ≠ [] ∨ chunks ≠ []) →
      ∃ l' ch',
        read_block_loop length chunks rx buf =
          some (rx ++ (buf ++ chunks.flatten).take (length - rx.length), l', ch') ∧
        l' ++ ch'.flatten = (buf ++ chunks.flatten).drop (length - rx.length) ∧
        ∀ c ∈ ch', c ≠ [] := by
  intro chunks
  induction chunks with
  | nil =>
    intro rx buf _ hrx hle hside
    simp only [List.map_nil, List.sum_nil, Nat.add_zero] at hle
    by_cases hbuf : buf.length = 0
    · exfalso
      have hb : buf = [] := List.length_eq_zero.mp hbuf
      rcases hside with h | h | h
      · omega
      · exact h hb
      · exact h rfl
    · refine ⟨buf.drop (length - rx.length), [], ?_, ?_, ?_⟩
      · simp only [read_block_loop, hbuf, if_false]
        by_cases hfits : rx.length + buf.length ≤ length
        · have heq : rx.length + buf.length = length := by omega
          simp only [hfits, if_true, (by omega : length ≤ rx.length + buf.length),
            if_true]
          have hk : length - rx.length = buf.length := by omega
          have : buf.drop (length - rx.length) = [] := by
            rw [hk]; exact List.drop_length buf
          rw [hk]
          simp [List.take_length]
        · simp only [hfits, if_false]
          have : (buf ++ List.flatten []).take (length - rx.length) =
              buf.take (length - rx.length) := by simp
          rw [this]
      · simp
      · simp
  | cons c cs ih =>
    intro rx buf hck hrx hle hside
    have hc : c ≠ [] := hck c (by simp)
    have hcs : ∀ d ∈ cs, d ≠ [] := fun d hd => hck d (by simp [hd])
    by_cases hbuf : buf.length = 0
    · have hb : buf = [] := List.length_eq_zero.mp hbuf
      subst hb
      simp only [read_block_loop, List.length_nil, if_true, hc, if_false]
      have hle' : length ≤ rx.length + c.length + (cs.map List.length).sum := by
        simp only [List.map_cons, List.sum_cons, List.length_nil] at hle
        omega
      obtain ⟨l', ch', heq, hrest, hne⟩ :=
        ih rx c hcs hrx hle' (Or.inr (Or.inl hc))
      refine ⟨l', ch', ?_, ?_, hne⟩
      · rw [heq]; simp
      · rw [hrest]; simp
    · by_cases hfits : rx.length + buf.length ≤ length
      · by_cases hdone : length ≤ rx.length + buf.length
        · -- the buffer completes the request exactly
          have hk : length - rx.length = buf.length := by omega
          refine ⟨[], c :: cs, ?_, ?_, hck⟩
          · simp only [read_block_loop, hbuf, if_false, hfits, if_true,
              hdone, if_true]
            rw [hk]
            congr 2
            rw [List.take_append_eq_append_take, List.take_length]
            simp
          · rw [hk, List.drop_append_eq_append_drop, List.drop_length]
            simp
        · -- buffer consumed whole, more data needed: recurse into next chunk
          have hlt : rx.length + buf.length < length := by omega
          simp only [read_block_loop, hbuf, if_false, hfits, if_true,
            if_neg hdone, hc, if_false]
          have hle' : length ≤ (rx ++ buf).length + c.length +
              (cs.map List.length).sum := by
            simp only [List.map_cons, List.sum_cons] at hle
            simp only [List.length_append]
            omega
          obtain ⟨l', ch', heq, hrest, hne⟩ :=
            ih (rx ++ buf) c hcs (by simp only [List.length_append]; omega)
              hle' (Or.inr (Or.inl hc))
          have hbk : buf.length ≤ length - rx.length := by omega
          have hk' : length - rx.length - buf.length =
              length - (rx ++ buf).length := by
            simp only [List.length_append]
            omega
          have hmain : rx ++ (buf ++ (c :: cs).flatten).take
                (length - rx.length) =
              (rx ++ buf) ++ (c ++ cs.flatten).take
                (length - (rx ++ buf).length) := by
            rw [List.flatten_cons, List.take_append_eq_append_take,
              List.take_of_length_le hbk, hk', List.append_assoc]
          have hdrop : (buf ++ (c :: cs).flatten).drop (length - rx.length) =
              (c ++ cs.flatten).drop (length - (rx ++ buf).length) := by
            rw [List.flatten_cons, List.drop_append_eq_append_drop,
              List.drop_eq_nil_of_le hbk, hk', List.nil_append]
          refine ⟨l', ch', ?_, ?_, hne⟩
          · rw [heq, hmain]
          · rw [hrest, hdrop]
      · -- buffer more than fills the request: split it
        have hk : length - rx.length ≤ buf.length := by omega
        refine ⟨buf.drop (length - rx.length), c :: cs, ?_, ?_, hck⟩
        · simp only [read_block_loop, hbuf, if_false, hfits, if_false]
          have : (buf ++ (c :: cs).flatten).take (length - rx.length) =
              buf.take (length - rx.length) := by
            rw [List.take_append_eq_append_take,
              (by omega : length - rx.length - buf.length = 0)]
            simp
          rw [this]
        · rw [List.drop_append_eq_append_drop,
            (by omega : length - rx.length - buf.length = 0)]
          simp

/-- C1 counterexample: a stream totalling `0 ≥ n = 0` bytes delivered in
zero chunks satisfies the claim's hypothesis, but `read_block(0)` on an
empty leftover buffer does not return the first `0` bytes: the loop calls
`recv`, which fails (blocks until timeout / EOF), so no value is returned. -/
theorem read_block_zero_counterexample :
    0 ≤ ([] : List Nat).length + (([] : List (List Nat)).map List.length).sum ∧
    read_block 0 [] [] = none := by
  constructor
  · simp
  · rfl

/-- C1 amended: for every stream `leftover ++ chunks.flatten` (chunks of
arbitrary nonzero sizes) totalling at least `n` bytes, provided at least one
byte is pending or `n ≥ 1` (for `n = 0` with nothing pending the call blocks
in `recv` instead of returning), `read_block(n)` returns exactly the first
`n` bytes of the stream, and the leftover buffer plus undelivered chunks
hold exactly the remainder — no byte lost or duplicated — so a subsequent
call continues from byte `n`. -/
theorem read_block_spec (n : Nat) (leftover : List Nat)
    (chunks : List (List Nat))
    (hck : ∀ c ∈ chunks, c ≠ [])
    (hn : n ≤ leftover.length + (chunks.map List.length).sum)
    (hne : 1 ≤ n ∨ leftover ≠ [] ∨ chunks ≠ []) :
    ∃ l' ch',
      read_block n leftover chunks =
        some ((leftover ++ chunks.flatten).take n, l', ch') ∧
      l' ++ ch'.flatten = (leftover ++ chunks.flatten).drop n ∧
      ∀ c ∈ ch', c ≠ [] := by
  have h := read_block_loop_spec n chunks [] leftover hck (by simp)
    (by simpa using hn)
    (by rcases hne with h | h | h
        · exact Or.inl (by simpa using h)
        · exact Or.inr (Or.inl h)
        · exact Or.inr (Or.inr h))
  simpa [read_block] using h

/-- Witness for C1's amended theorem: three bytes requested from a leftover
byte `[10]` and two chunks `[20]`, `[30, 40]`. -/
theorem read_block_spec_witness :
    ∃ l' ch',
      read_block 3 [10] [[20], [30, 40]] =
        some (([10] ++ [[20], [30, 40]].flatten).take 3, l', ch') ∧
      l' ++ ch'.flatten = ([10] ++ [[20], [30, 40]].flatten).drop 3 ∧
      ∀ c ∈ ch', c ≠ [] :=
  read_block_spec 3 [10] [[20], [30, 40]] (by decide) (by decide)
    (Or.inl (by decide))

/-! ## Monitor helper lemmas -/

/-- Splitting the monitor loop across a prefix of successful reads. -/
theorem monitor_loop_ok_append (notify : Nat) :
    ∀ (pre : List Block) (buf : List Sample)
      (rest : List (Except String Block)),
      monitor_loop notify buf (pre.map Except.ok ++ rest) =
        monitor_data_events notify buf pre ++
          monitor_loop notify (pre.foldl buffer_write buf) rest := by
  intro pre
  induction pre with
  | nil => intro buf rest; simp [monitor_data_events]
  | cons b bs ih =>
    intro buf rest
    simp only [List.map_cons, List.cons_append, monitor_loop,
      monitor_data_events, List.foldl_cons, List.append_eq]
    rw [ih]

/-- The loop's event list is a run of non-`eof` events closed by a single
`eof` carrying the loop's final `stop_reason`. -/
theorem monitor_loop_shape (notify : Nat) :
    ∀ (reads : List (Except String Block)) (buf : List Sample),
      ∃ pre, monitor_loop notify buf reads =
          pre ++ [MonitorEvent.eof (monitor_stop_reason reads)] ∧
        ∀ e ∈ pre, e.isEof = false := by
  intro reads
  induction reads with
  | nil =>
    intro buf
    exact ⟨[MonitorEvent.close], rfl, by simp [MonitorEvent.isEof]⟩
  | cons r rest ih =>
    intro buf
    cases r with
    | error msg =>
      exact ⟨[MonitorEvent.close], rfl, by simp [MonitorEvent.isEof]⟩
    | ok b =>
      obtain ⟨pre, hpre, hne⟩ := ih (buffer_write buf b)
      refine ⟨MonitorEvent.data
          (monitor_read (buffer_write buf b) notify) :: pre, ?_, ?_⟩
      · simp only [monitor_loop, monitor_stop_reason, hpre, List.cons_append]
      · intro e he
        rcases List.mem_cons.mp he with h | h
        · subst h; rfl
        · exact hne e h

/-! ## Claim C6 -/

/-- C6: a read failure with message `msg`, after any prefix of successful
reads, terminates the loop (the pending reads in `rest` are never
consumed), closes the subscription, and fires `on_eof` exactly once, with
the failure string, as the final event. -/
theorem monitor_failure_terminal (notify : Nat) (buf : List Sample)
    (pre : List Block) (msg : String) (rest : List (Except String Block)) :
    monitor_trace notify buf (pre.map Except.ok ++ Except.error msg :: rest) =
      MonitorEvent.connect :: monitor_data_events notify buf pre ++
        [MonitorEvent.close, MonitorEvent.eof msg] ∧
    (monitor_trace notify buf
        (pre.map Except.ok ++ Except.error msg :: rest)).filter
      MonitorEvent.isEof = [MonitorEvent.eof msg] ∧
    (monitor_trace notify buf
        (pre.map Except.ok ++ Except.error msg :: rest)).getLast? =
      some (MonitorEvent.eof msg) := by
  have htr : monitor_trace notify buf
      (pre.map Except.ok ++ Except.error msg :: rest) =
      MonitorEvent.connect :: monitor_data_events notify buf pre ++
        [MonitorEvent.close, MonitorEvent.eof msg] := by
    simp only [monitor_trace, monitor_loop_ok_append, monitor_loop]
    simp
  refine ⟨htr, ?_, ?_⟩
  · rw [htr]
    have hdata : ∀ e ∈ monitor_data_events notify buf pre,
        e.isEof = false := by
      clear htr
      induction pre generalizing buf with
      | nil => simp [monitor_data_events]
      | cons b bs ih =>
        intro e he
        simp only [monitor_data_events] at he
        rcases List.mem_cons.mp he with h | h
        · subst h; rfl
        · exact ih (buffer_write buf b) e h
    simp only [List.cons_append, List.filter_cons, List.filter_append]
    rw [List.filter_eq_nil_iff.mpr (by intro e he; simp [hdata e he])]
    simp [MonitorEvent.isEof]
  · rw [htr]
    have : MonitorEvent.connect :: monitor_data_events notify buf pre ++
        [MonitorEvent.close, MonitorEvent.eof msg] =
        (MonitorEvent.connect :: monitor_data_events notify buf pre ++
          [MonitorEvent.close]) ++ [MonitorEvent.eof msg] := by
      simp
    rw [this, List.getLast?_concat]

/-! ## Claim C10 -/

/-- C10: whatever the run's inputs, once `on_connect` has fired the loop
delivers `on_eof` exactly once, as its final event; when no read fails (the
loop exits because `stop()` cleared `running`, as `set_channel` does on a
running monitor) the reason is `'Stopped'`. -/
theorem monitor_eof_exactly_once (notify : Nat) (buf : List Sample)
    (reads : List (Except String Block)) :
    (monitor_trace notify buf reads).filter MonitorEvent.isEof =
      [MonitorEvent.eof (monitor_stop_reason reads)] ∧
    (monitor_trace notify buf reads).getLast? =
      some (MonitorEvent.eof (monitor_stop_reason reads)) ∧
    ((∀ msg, Except.error msg ∉ reads) →
      monitor_stop_reason reads = "Stopped") := by
  obtain ⟨pre, hpre, hne⟩ := monitor_loop_shape notify reads buf
  refine ⟨?_, ?_, ?_⟩
  · simp only [monitor_trace, List.filter_cons, hpre]
    rw [List.filter_append,
      List.filter_eq_nil_iff.mpr (by intro e he; simp [hne e he])]
    simp [MonitorEvent.isEof]
  · simp only [monitor_trace, hpre]
    rw [← List.cons_append, List.getLast?_concat]
  · intro hok
    clear hpre hne
    induction reads with
    | nil => rfl
    | cons r rest ih =>
      cases r with
      | error msg => exact absurd (by simp) (hok msg)
      | ok b =>
        exact ih fun msg h => hok msg (List.mem_cons_of_mem _ h)

/-- Witness for C10 on a concrete run: one successful read then a stop. -/
theorem monitor_eof_exactly_once_witness :
    (monitor_trace 1 [((0 : ℚ), (0 : ℚ))]
        [Except.ok [((5 : ℚ), (6 : ℚ))]]).filter MonitorEvent.isEof =
      [MonitorEvent.eof (monitor_stop_reason
        [Except.ok [((5 : ℚ), (6 : ℚ))]])] ∧
    (monitor_trace 1 [((0 : ℚ), (0 : ℚ))]
        [Except.ok [((5 : ℚ), (6 : ℚ))]]).getLast? =
      some (MonitorEvent.eof (monitor_stop_reason
        [Except.ok [((5 : ℚ), (6 : ℚ))]])) ∧
    ((∀ msg : String, Except.error msg ∉
        ([Except.ok [((5 : ℚ), (6 : ℚ))]] : List (Except String Block))) →
      monitor_stop_reason [Except.ok [((5 : ℚ), (6 : ℚ))]] = "Stopped") :=
  monitor_eof_exactly_once 1 [((0 : ℚ), (0 : ℚ))]
    [Except.ok [((5 : ℚ), (6 : ℚ))]]

/-! ## Claim C8

The claim states the raised error's text is exactly `"bad mask"`.  The code
raises `self.Error((c + self.recv())[:-1])` where `c` is the status byte, so
the status byte `0x01` is part of the error text. -/

/-- C8 counterexample: with status byte `0x01` followed by `"bad mask\n"`
(bytes `[98, 97, 100, 32, 109, 97, 115, 107, 10]`), the raised error text is
`"\x01bad mask"` — the status byte followed by the message — not
`"bad mask"`. -/
theorem subscription_handshake_bad_mask_counterexample :
    subscription_handshake 1 [98, 97, 100, 32, 109, 97, 115, 107, 10] =
      Except.error [1, 98, 97, 100, 32, 109, 97, 115, 107] ∧
    subscription_handshake 1 [98, 97, 100, 32, 109, 97, 115, 107, 10] ≠
      Except.error [98, 97, 100, 32, 109, 97, 115, 107] := by
  refine ⟨rfl, fun h => ?_⟩
  have h0 : subscription_handshake 1 [98, 97, 100, 32, 109, 97, 115, 107, 10] =
      Except.error [1, 98, 97, 100, 32, 109, 97, 115, 107] := rfl
  rw [h0] at h
  exact absurd (Except.error.inj h) (by decide)

/-- C8 amended: on a nonzero status byte followed by a newline-terminated
message, subscription construction fails with an error whose text is the
status byte followed by the message (minus the trailing newline). -/
theorem subscription_handshake_error_text (status : Nat) (msg : List Nat)
    (h : status ≠ 0) :
    subscription_handshake status (msg ++ [10]) =
      Except.error (status :: msg) := by
  unfold subscription_handshake
  rw [if_neg h, ← List.cons_append, List.dropLast_concat]

/-- Witness for C8's amended theorem at status `0x01` and message
`"bad mask"`. -/
theorem subscription_handshake_error_text_witness :
    subscription_handshake 1 ([98, 97, 100, 32, 109, 97, 115, 107] ++ [10]) =
      Except.error (1 :: [98, 97, 100, 32, 109, 97, 115, 107]) :=
  subscription_handshake_error_text 1 [98, 97, 100, 32, 109, 97, 115, 107]
    (by decide)

/-! ## Claim C9

The claim states `on_data` receives exactly the most recent 500 samples of
the 1000 written.  `monitor.read` returns
`1e-3 * self.buffer.read(self.notify_size)`: the most recent 500 samples
scaled by `1e-3`, not the samples themselves. -/

/-- C9 counterexample: `update_size = 1000`, `notify_size = 500`, a freshly
reset buffer of capacity 1000, and one successful read of 1000 copies of the
sample `(2000, 3000)`.  The `on_data` payload is 500 copies of `(2, 3)`,
whereas the most recent 500 samples written are 500 copies of
`(2000, 3000)`; the two differ. -/
theorem monitor_notify_counterexample :
    monitor_trace 500 (buffer_reset 1000)
        [Except.ok (List.replicate 1000 ((2000 : ℚ), (3000 : ℚ)))] =
      [MonitorEvent.connect,
        MonitorEvent.data (List.replicate 500 ((2 : ℚ), (3 : ℚ))),
        MonitorEvent.close, MonitorEvent.eof "Stopped"] ∧
    npTail (List.replicate 1000 ((2000 : ℚ), (3000 : ℚ))) 500 =
      List.replicate 500 ((2000 : ℚ), (3000 : ℚ)) ∧
    List.replicate 500 ((2 : ℚ), (3 : ℚ)) ≠
      List.replicate 500 ((2000 : ℚ), (3000 : ℚ)) := by
  refine ⟨?_, ?_, ?_⟩
  · have hw : buffer_write (buffer_reset 1000)
        (List.replicate 1000 ((2000 : ℚ), (3000 : ℚ))) =
        List.replicate 1000 ((2000 : ℚ), (3000 : ℚ)) := by
      simp only [buffer_write, buffer_reset, List.length_replicate,
        List.drop_replicate, Nat.sub_self, List.replicate_zero,
        List.nil_append]
    simp only [monitor_trace, monitor_loop, hw]
    have hr : monitor_read (List.replicate 1000 ((2000 : ℚ), (3000 : ℚ))) 500 =
        List.replicate 500 ((2 : ℚ), (3 : ℚ)) := by
      simp only [monitor_read, buffer_read, npTail, List.length_replicate]
      rw [if_neg (by omega), List.drop_replicate, List.map_replicate]
      norm_num
    rw [hr]
  · simp only [npTail, List.length_replicate]
    rw [if_neg (by omega), List.drop_replicate]
  · intro h
    have := congrArg List.head? h
    simp [List.head?_replicate] at this

/-- C9 amended: with `update_size = 1000` and `notify_size = 500`, after one
successful read of a 1000-sample block into a buffer of capacity ≥ 1000,
`on_data` receives the most recent 500 samples of the block, each scaled by
`1e-3` (the nm→µm presentation factor applied by `monitor.read`). -/
theorem monitor_notify_spec (buf blk : List Sample)
    (hcap : 1000 ≤ buf.length) (hblk : blk.length = 1000) :
    monitor_trace 500 buf [Except.ok blk] =
      [MonitorEvent.connect,
        MonitorEvent.data ((blk.drop 500).map
          fun s => (1 / 1000 * s.1, 1 / 1000 * s.2)),
        MonitorEvent.close, MonitorEvent.eof "Stopped"] := by
  have hwlen : (buffer_write buf blk).length = buf.length := by
    simp [buffer_write]
    omega
  have hr : buffer_read (buffer_write buf blk) 500 = blk.drop 500 := by
    simp only [buffer_read, npTail, hwlen]
    rw [if_neg (by omega), buffer_write, List.drop_append_eq_append_drop]
    have h1 : (buf.drop blk.length).drop (buf.length - 500) = [] :=
      List.drop_eq_nil_of_le (by simp; omega)
    have h2 : buf.length - 500 - (buf.drop blk.length).length = 500 := by
      simp
      omega
    rw [h1, h2, List.nil_append]
  simp only [monitor_trace, monitor_loop, monitor_read, hr]

/-- Witness for C9's amended theorem at a concrete buffer and block. -/
theorem monitor_notify_spec_witness :
    monitor_trace 500 (buffer_reset 1000)
        [Except.ok (List.replicate 1000 ((2000 : ℚ), (3000 : ℚ)))] =
      [MonitorEvent.connect,
        MonitorEvent.data
          (((List.replicate 1000 ((2000 : ℚ), (3000 : ℚ))).drop 500).map
            fun s => (1 / 1000 * s.1, 1 / 1000 * s.2)),
        MonitorEvent.close, MonitorEvent.eof "Stopped"] :=
  monitor_notify_spec (buffer_reset 1000)
    (List.replicate 1000 ((2000 : ℚ), (3000 : ℚ)))
    (by simp only [buffer_reset, List.length_replicate]; omega)
    (by simp only [List.length_replicate])

/-! ## Spectrum helper lemmas -/

theorem length_takeWhile_mono {α : Type} {p q : α → Bool}
    (h : ∀ x, p x = true → q x = true) :
    ∀ l : List α, (l.takeWhile p).length ≤ (l.takeWhile q).length := by
  intro l
  induction l with
  | nil => simp
  | cons x xs ih =>
    by_cases hp : p x = true
    · simp only [List.takeWhile_cons, hp, h x hp, if_true, List.length_cons]
      omega
    · simp only [List.takeWhile_cons, if_neg hp]
      exact Nat.zero_le _

theorem searchsorted_mono (a : List ℚ) {v w : ℚ} (h : v ≤ w) :
    searchsorted a v ≤ searchsorted a w := by
  apply length_takeWhile_mono
  intro x hx
  exact decide_eq_true (lt_of_lt_of_le (of_decide_eq_true hx) h)

theorem searchsorted_le_length (a : List ℚ) (v : ℚ) :
    searchsorted a v ≤ a.length :=
  (List.takeWhile_sublist _).length_le

theorem freq_bins_chain (F_S : ℚ) (H : Nat) (freqs : List ℚ)
    (hmono : List.Chain' (· ≤ ·) freqs) :
    List.Chain' (· ≤ ·) (freq_bins F_S H freqs) := by
  unfold freq_bins
  cases freqs with
  | nil => simp
  | cons f fs =>
    rw [List.map_cons]
    refine List.chain'_cons.mpr ⟨Nat.zero_le _, ?_⟩
    rw [← List.map_cons]
    exact (List.chain'_map _).mpr
      (hmono.imp fun a b h => searchsorted_mono _ h)

theorem freq_bins_le (F_S : ℚ) (H : Nat) (freqs : List ℚ) :
    ∀ b ∈ freq_bins F_S H freqs, b ≤ H := by
  intro b hb
  unfold freq_bins at hb
  rcases List.mem_cons.mp hb with rfl | hb'
  · exact Nat.zero_le H
  · obtain ⟨f, _, rfl⟩ := List.mem_map.mp hb'
    have h1 := searchsorted_le_length (fft_freqs F_S H) f
    have h2 : (fft_freqs F_S H).length = H := by
      unfold fft_freqs
      rw [List.length_map, List.length_range]
    omega

/-- In a `≤`-chained list every member is bounded by the last element. -/
theorem mem_le_getLastD {l : List Nat} (hl : List.Chain' (· ≤ ·) l) :
    ∀ b ∈ l, b ≤ l.getLast?.getD 0 := by
  induction l with
  | nil => simp
  | cons x xs ih =>
    intro b hb
    cases xs with
    | nil =>
      rcases List.mem_cons.mp hb with rfl | hb'
      · simp
      · simp at hb'
    | cons y ys =>
      obtain ⟨hxy, htail⟩ := List.chain'_cons.mp hl
      rw [List.getLast?_cons_cons]
      rcases List.mem_cons.mp hb with rfl | hb'
      · exact le_trans hxy (ih htail y (by simp))
      · exact ih htail b hb'

theorem set_zero_take {α : Type} (l : List α) (m : Nat) (a : α)
    (hm : 1 ≤ m) :
    (l.take m).set 0 a = (l.set 0 a).take m := by
  cases l with
  | nil => simp
  | cons x xs =>
    cases m with
    | zero => omega
    | succ m => simp [List.set]

theorem cumsum_take (l : List ℚ) (m : Nat) :
    cumsum (l.take m) = (cumsum l).take m := by
  induction l generalizing m with
  | nil => simp [cumsum]
  | cons x xs ih =>
    cases m with
    | zero => simp [cumsum]
    | succ m => simp [cumsum, ih, List.map_take]

/-! ## Claim C7

The claim states that a frequency beyond the Nyquist limit makes its bin
boundary saturate at the last valid index of the positive-frequency axis.
`numpy.searchsorted` returns `len(fft_freqs) = H` for such a frequency —
one past the last valid index `H - 1` — and `fft_freqs[self.bins]` in the
`bin_scale` computation then raises `IndexError`. -/

/-- C7 counterexample: `F_S = 8`, `H = 4` gives the frequency axis
`[0, 1, 2, 3]` with Nyquist limit `4`; the strictly increasing request
`[5]` exceeds it, and its boundary is `4 = H`, not a valid index `< 4`:
there is no saturation at the last valid index `3`. -/
theorem freq_bins_saturation_counterexample :
    List.Chain' (· < ·) [(5 : ℚ)] ∧
    freq_bins 8 4 [(5 : ℚ)] = [0, 4] ∧
    ¬ ∀ b ∈ freq_bins 8 4 [(5 : ℚ)], b < 4 := by
  have hax : fft_freqs 8 4 = [(0 : ℚ), 1, 2, 3] := by
    norm_num [fft_freqs, List.range_succ]
  have heq : freq_bins 8 4 [(5 : ℚ)] = [0, 4] := by
    norm_num [freq_bins, hax, searchsorted, List.takeWhile_cons]
  refine ⟨by simp, heq, fun hall => ?_⟩
  rw [heq] at hall
  exact absurd (hall 4 (by simp)) (by decide)

/-- C7 amended: for every strictly increasing `frequency_list` the
precomputed boundaries start with `0`, are monotonically non-decreasing,
and are bounded by `H` (the length of the positive-frequency half of the
transform); a boundary can equal `H` — one past the last valid index —
when a requested frequency exceeds every axis frequency, in which case the
per-bin-width normalisation `fft_freqs[self.bins]` indexes out of bounds
rather than saturating. -/
theorem freq_bins_spec (F_S : ℚ) (H : Nat) (freqs : List ℚ)
    (hmono : List.Chain' (· < ·) freqs) :
    (freq_bins F_S H freqs).head? = some 0 ∧
    List.Chain' (· ≤ ·) (freq_bins F_S H freqs) ∧
    ∀ b ∈ freq_bins F_S H freqs, b ≤ H :=
  ⟨rfl, freq_bins_chain F_S H freqs (hmono.imp fun _ _ hab => le_of_lt hab),
    freq_bins_le F_S H freqs⟩

/-- Witness for C7's amended theorem at `F_S = 8`, `H = 4`,
frequencies `[1, 3]`. -/
theorem freq_bins_spec_witness :
    (freq_bins 8 4 [(1 : ℚ), 3]).head? = some 0 ∧
    List.Chain' (· ≤ ·) (freq_bins 8 4 [(1 : ℚ), 3]) ∧
    ∀ b ∈ freq_bins 8 4 [(1 : ℚ), 3], b ≤ 4 :=
  freq_bins_spec 8 4 [(1 : ℚ), 3] (by norm_num)

/-! ## Claim C3 -/

/-- C3: on a state built by `Compute.__init__` for a monotone frequency
list (with `last` replaced by whatever previous half-block is stored),
`compute(data)` returns exactly the spec's
`(s[1:], diff(s)/bin_width)` with
`s = 4 * cumsum(|FFT(window * concat(last, data))|²` with the DC term
zeroed`)[bins] / (2H)²` — the code's truncation of the transform to
`fft_length` before the cumulative sum does not change any sampled value —
and it stores the input half-block as `last`. -/
theorem Compute.compute_eq_spec (fft : List ℚ → List (ℚ × ℚ)) (F_S : ℚ)
    (H : Nat) (freqs window prev data : List ℚ)
    (hmono : List.Chain' (· ≤ ·) freqs) :
    Compute.compute fft
        { Compute.init F_S H freqs window with last := prev } data =
      Compute.compute_spec fft
        { Compute.init F_S H freqs window with last := prev } data ∧
    (Compute.compute fft
        { Compute.init F_S H freqs window with last := prev } data).2 =
      { Compute.init F_S H freqs window with last := data } := by
  have hchain : List.Chain' (· ≤ ·) (freq_bins F_S H freqs) :=
    freq_bins_chain F_S H freqs hmono
  have hbins : ∀ b ∈ freq_bins F_S H freqs,
      b < (freq_bins F_S H freqs).getLast?.getD 0 + 1 := by
    intro b hb
    have := mem_le_getLastD hchain b hb
    omega
  constructor
  · simp only [Compute.compute, Compute.compute_spec, Compute.init]
    refine congrArg (fun s =>
      ((s.drop 1, (diff s).zipWith (· / ·) _), _)) ?_
    apply List.map_congr_left
    intro b hb
    have hblt := hbins b hb
    have hkey :
        (cumsum ((((fft ((prev ++ data).zipWith (· * ·) window)).take
            ((freq_bins F_S H freqs).getLast?.getD 0 + 1)).set 0
              ((0 : ℚ), (0 : ℚ))).map normSq)).getD b 0 =
        (cumsum (((fft ((prev ++ data).zipWith (· * ·) window)).set 0
            ((0 : ℚ), (0 : ℚ))).map normSq)).getD b 0 := by
      rw [set_zero_take _ _ _ (by omega), List.map_take, cumsum_take,
        List.getD_eq_getElem?_getD, List.getD_eq_getElem?_getD,
        List.getElem?_take, if_pos hblt]
    rw [hkey]
  · rfl

/-- Witness for C3 at a concrete transform and state: `F_S = 8`, `H = 2`,
frequencies `[1, 2]`, window `[1, 1, 1, 1]`, previous half-block `[1, 2]`,
new half-block `[3, 4]`, and a (placeholder external) transform mapping
each entry `x` to `(x, x + 1)`. -/
theorem Compute.compute_eq_spec_witness :
    Compute.compute (fun l => l.map fun x => (x, x + 1))
        { Compute.init 8 2 [(1 : ℚ), 2] [1, 1, 1, 1] with
          last := [(1 : ℚ), 2] } [(3 : ℚ), 4] =
      Compute.compute_spec (fun l => l.map fun x => (x, x + 1))
        { Compute.init 8 2 [(1 : ℚ), 2] [1, 1, 1, 1] with
          last := [(1 : ℚ), 2] } [(3 : ℚ), 4] ∧
    (Compute.compute (fun l => l.map fun x => (x, x + 1))
        { Compute.init 8 2 [(1 : ℚ), 2] [1, 1, 1, 1] with
          last := [(1 : ℚ), 2] } [(3 : ℚ), 4]).2 =
      { Compute.init 8 2 [(1 : ℚ), 2] [1, 1, 1, 1] with
        last := [(3 : ℚ), 4] } :=
  Compute.compute_eq_spec (fun l => l.map fun x => (x, x + 1)) 8 2
    [(1 : ℚ), 2] [1, 1, 1, 1] [(1 : ℚ), 2] [(3 : ℚ), 4] (by norm_num)

/-! ## Mask helper lemmas: decimal and hexadecimal digit round trips

The per-digit facts are finite (`[0, 255]` ids, `[0, 15]` hex digits) and
established once by evaluation. -/

set_option maxRecDepth 4000

theorem parseDec_decChars_all :
    ((List.range 256).all fun n => parseDec (decChars n) == some n) = true := by
  decide

theorem decChars_wf_all :
    ((List.range 256).all fun n =>
      (decChars n).all isDigitChar && !(decChars n).isEmpty) = true := by
  decide

theorem hexDigit_all :
    ((List.range 16).all fun d =>
      Hex.parseHexDigit (Hex.hexDigit d) == some d) = true := by
  decide

theorem parseDec_decChars {n : Nat} (h : n < 256) :
    parseDec (decChars n) = some n :=
  beq_iff_eq.mp (List.all_eq_true.mp parseDec_decChars_all n
    (List.mem_range.mpr h))

theorem decChars_digits {n : Nat} (h : n < 256) :
    ∀ c ∈ decChars n, isDigitChar c = true :=
  List.all_eq_true.mp
    (Bool.and_eq_true_iff.mp
      (List.all_eq_true.mp decChars_wf_all n (List.mem_range.mpr h))).1

theorem decChars_ne_nil {n : Nat} (h : n < 256) : decChars n ≠ [] := by
  have h2 := (Bool.and_eq_true_iff.mp
    (List.all_eq_true.mp decChars_wf_all n (List.mem_range.mpr h))).2
  intro hnil
  rw [hnil] at h2
  simp at h2

theorem decChars_not_comma {n : Nat} (h : n < 256) : ',' ∉ decChars n :=
  fun hc => absurd (decChars_digits h _ hc) (by decide)

theorem decChars_not_dash {n : Nat} (h : n < 256) : '-' ∉ decChars n :=
  fun hc => absurd (decChars_digits h _ hc) (by decide)

theorem parseHexDigit_hexDigit {d : Nat} (hd : d < 16) :
    Hex.parseHexDigit (Hex.hexDigit d) = some d :=
  beq_iff_eq.mp (List.all_eq_true.mp hexDigit_all d (List.mem_range.mpr hd))

/-! ## Mask helper lemmas: splitting and joining -/

theorem splitOnChar_shape (sep : Char) :
    ∀ s : List Char, ∃ t ts, splitOnChar sep s = t :: ts := by
  intro s
  induction s with
  | nil => exact ⟨[], [], rfl⟩
  | cons x xs ih =>
    obtain ⟨t, ts, h⟩ := ih
    by_cases hx : x = sep
    · exact ⟨[], t :: ts, by simp [splitOnChar, h, hx]⟩
    · exact ⟨x :: t, ts, by simp [splitOnChar, h, hx]⟩

theorem splitOnChar_of_not_mem {sep : Char} {t : List Char} (h : sep ∉ t) :
    splitOnChar sep t = [t] := by
  induction t with
  | nil => rfl
  | cons x xs ih =>
    have hx : ¬x = sep := fun he => h (by simp [he])
    have hxs : sep ∉ xs := fun hm => h (List.mem_cons_of_mem _ hm)
    simp [splitOnChar, ih hxs, hx]

theorem splitOnChar_append {sep : Char} {t r : List Char} (h : sep ∉ t) :
    splitOnChar sep (t ++ sep :: r) = t :: splitOnChar sep r := by
  induction t with
  | nil =>
    obtain ⟨u, us, hu⟩ := splitOnChar_shape sep r
    simp [splitOnChar, hu]
  | cons x xs ih =>
    have hx : ¬x = sep := fun he => h (by simp [he])
    have hxs : sep ∉ xs := fun hm => h (List.mem_cons_of_mem _ hm)
    simp [splitOnChar, ih hxs, hx]

theorem splitOnChar_joinComma :
    ∀ ts : List (List Char), ts ≠ [] → (∀ t ∈ ts, ',' ∉ t) →
      splitOnChar ',' (joinComma ts) = ts := by
  intro ts
  induction ts with
  | nil => intro h; exact absurd rfl h
  | cons t ts ih =>
    intro _ hmem
    cases ts with
    | nil => exact splitOnChar_of_not_mem (hmem t (by simp))
    | cons u us =>
      have h1 : joinComma (t :: u :: us) = t ++ ',' :: joinComma (u :: us) :=
        rfl
      rw [h1, splitOnChar_append (hmem t (by simp)),
        ih (by simp) fun v hv => hmem v (List.mem_cons_of_mem _ hv)]

/-! ## Mask helper lemmas: tokens of the range encoder -/

theorem parseToken_render {f l : Nat} (hf : f < 256) (hl : l < 256)
    (hfl : f ≤ l) :
    parseToken (render_range f l) = some (List.range' f (l + 1 - f)) := by
  unfold render_range
  by_cases he : l = f
  · subst he
    rw [if_pos rfl]
    unfold parseToken
    rw [splitOnChar_of_not_mem (decChars_not_dash hl)]
    simp [parseDec_decChars hl, List.range'_one]
  · rw [if_neg he]
    unfold parseToken
    rw [splitOnChar_append (decChars_not_dash hf),
      splitOnChar_of_not_mem (decChars_not_dash hl)]
    simp [parseDec_decChars hf, parseDec_decChars hl]

theorem render_range_no_comma {f l : Nat} (hf : f < 256) (hl : l < 256) :
    ',' ∉ render_range f l := by
  unfold render_range
  by_cases he : l = f
  · rw [if_pos he]
    exact decChars_not_comma hl
  · rw [if_neg he]
    intro hc
    rcases List.mem_append.mp hc with h1 | h2
    · exact decChars_not_comma hf h1
    · rcases List.mem_cons.mp h2 with h3 | h4
      · exact absurd h3 (by decide)
      · exact decChars_not_comma hl h4

theorem ranges_loop_ne_nil : ∀ (rest : List Nat) (first last : Nat),
    ranges_loop first last rest ≠ [] := by
  intro rest
  induction rest with
  | nil => intro f l; simp [ranges_loop]
  | cons id rest ih =>
    intro f l
    unfold ranges_loop
    by_cases h : id = l + 1
    · rw [if_pos h]
      exact ih f id
    · rw [if_neg h]
      simp

theorem ranges_loop_tokens : ∀ (rest : List Nat) (first last : Nat),
    first < 256 → last < 256 → (∀ i ∈ rest, i < 256) →
    ∀ t ∈ ranges_loop first last rest, ',' ∉ t := by
  intro rest
  induction rest with
  | nil =>
    intro f l hf hl _ t ht
    simp only [ranges_loop, List.mem_singleton] at ht
    subst ht
    exact render_range_no_comma hf hl
  | cons id rest ih =>
    intro f l hf hl hrest t ht
    have hid : id < 256 := hrest id (by simp)
    have hrest' : ∀ i ∈ rest, i < 256 := fun i hi => hrest i (by simp [hi])
    unfold ranges_loop at ht
    by_cases h : id = l + 1
    · rw [if_pos h] at ht
      exact ih f id hf (h ▸ hid) hrest' t ht
    · rw [if_neg h] at ht
      rcases List.mem_cons.mp ht with rfl | ht'
      · exact render_range_no_comma hf hl
      · exact ih id id hid hid hrest' t ht'

theorem decode_ranges_loop : ∀ (rest : List Nat) (first last : Nat),
    first < 256 → last < 256 → first ≤ last → (∀ i ∈ rest, i < 256) →
    ∃ ys, parseTokens (ranges_loop first last rest) = some ys ∧
      ys.flatten = List.range' first (last + 1 - first) ++ rest := by
  intro rest
  induction rest with
  | nil =>
    intro f l hf hl hfl _
    refine ⟨[List.range' f (l + 1 - f)], ?_, by simp⟩
    simp [ranges_loop, parseTokens, parseToken_render hf hl hfl]
  | cons id rest ih =>
    intro f l hf hl hfl hrest
    have hid : id < 256 := hrest id (by simp)
    have hrest' : ∀ i ∈ rest, i < 256 := fun i hi => hrest i (by simp [hi])
    unfold ranges_loop
    by_cases h : id = l + 1
    · rw [if_pos h]
      obtain ⟨ys, hys, hflat⟩ := ih f id hf hid (by omega) hrest'
      refine ⟨ys, hys, ?_⟩
      rw [hflat]
      subst h
      have h1 : l + 1 + 1 - f = (l + 1 - f) + 1 := by omega
      rw [h1, List.range'_concat]
      have h2 : f + 1 * (l + 1 - f) = l + 1 := by omega
      rw [h2]
      simp
    · rw [if_neg h]
      obtain ⟨ys, hys, hflat⟩ := ih id id hid hid le_rfl hrest'
      refine ⟨List.range' f (l + 1 - f) :: ys, ?_, ?_⟩
      · simp [parseTokens, parseToken_render hf hl hfl, hys]
      · have h3 : id + 1 - id = 1 := by omega
        simp [hflat, h3, List.range'_one]

/-! ## Mask helper lemmas: the hex-bitmask variant -/

theorem foldl_set_bit_length : ∀ (l : List Nat) (nm : List Nat),
    (l.foldl Hex.set_bit nm).length = nm.length := by
  intro l
  induction l with
  | nil => intro nm; rfl
  | cons i l ih =>
    intro nm
    rw [List.foldl_cons, ih]
    simp [Hex.set_bit, List.length_set]

theorem foldl_set_bit_bound : ∀ (l : List Nat) (nm : List Nat),
    (∀ b ∈ nm, b < 256) → ∀ b ∈ l.foldl Hex.set_bit nm, b < 256 := by
  intro l
  induction l with
  | nil => intro nm h; exact h
  | cons i l ih =>
    intro nm h
    rw [List.foldl_cons]
    apply ih
    intro b hb
    rcases List.mem_or_eq_of_mem_set hb with h1 | h1
    · exact h b h1
    · subst h1
      have hold : nm.getD (i / 8) 0 < 256 := by
        rw [List.getD_eq_getElem?_getD]
        cases hg : nm[i / 8]? with
        | none => simp
        | some x => simpa using h x (List.getElem?_mem hg)
      have hshift : 1 <<< (i % 8) < 256 := by
        rw [Nat.one_shiftLeft]
        calc 2 ^ (i % 8) < 2 ^ 8 :=
              Nat.pow_lt_pow_right (by omega) (Nat.mod_lt _ (by omega))
          _ = 256 := rfl
      have h256 : (256 : Nat) = 2 ^ 8 := rfl
      rw [h256] at hold hshift ⊢
      exact Nat.or_lt_two_pow hold hshift

/-- A masked single-bit test is the `testBit` of that position. -/
theorem and_two_pow_bne (x t : Nat) : (x &&& 2 ^ t != 0) = x.testBit t := by
  rw [Nat.and_two_pow]
  cases h : x.testBit t
  · simp
  · simp [Nat.pos_iff_ne_zero.mp (Nat.two_pow_pos t)]

theorem test_bit_set_bit (nm : List Nat) (i j : Nat) (hlen : nm.length = 32)
    (hi : i < 256) (_hj : j < 256) :
    Hex.test_bit (Hex.set_bit nm i) j =
      (Hex.test_bit nm j || decide (j = i)) := by
  unfold Hex.test_bit Hex.set_bit
  rw [List.getD_eq_getElem?_getD, List.getElem?_set, hlen]
  by_cases hq : i / 8 = j / 8
  · rw [if_pos hq, if_pos (by omega : i / 8 < 32)]
    simp only [Option.getD_some, Nat.one_shiftLeft, and_two_pow_bne,
      Nat.testBit_or, Nat.testBit_two_pow]
    have hq2 : nm.getD (i / 8) 0 = nm.getD (j / 8) 0 := by rw [hq]
    rw [hq2]
    congr 1
    exact decide_eq_decide.mpr (by omega)
  · rw [if_neg hq]
    have hne : ¬(j = i) := by omega
    rw [List.getD_eq_getElem?_getD]
    simp [hne]

theorem test_bit_replicate_zero (j : Nat) :
    Hex.test_bit (List.replicate 32 0) j = false := by
  unfold Hex.test_bit
  rw [List.getD_eq_getElem?_getD, List.getElem?_replicate]
  by_cases h : j / 8 < 32 <;> simp [h]

theorem test_bit_foldl : ∀ (l : List Nat) (nm : List Nat) (j : Nat),
    nm.length = 32 → j < 256 → (∀ i ∈ l, i < 256) →
    Hex.test_bit (l.foldl Hex.set_bit nm) j =
      (Hex.test_bit nm j || decide (j ∈ l)) := by
  intro l
  induction l with
  | nil =>
    intro nm j _ _ _
    simp
  | cons i l ih =>
    intro nm j hlen hj hl
    rw [List.foldl_cons,
      ih (Hex.set_bit nm i) j
        (by simp [Hex.set_bit, List.length_set, hlen]) hj
        (fun x hx => hl x (by simp [hx])),
      test_bit_set_bit nm i j hlen (hl i (by simp)) hj]
    simp [List.mem_cons, Bool.or_assoc]

theorem test_bit_normalise (mask : List Nat) (hb : ∀ i ∈ mask, i < 256)
    {j : Nat} (hj : j < 256) :
    Hex.test_bit (Hex.normalise_mask mask) j = decide (j ∈ mask) := by
  unfold Hex.normalise_mask
  rw [test_bit_foldl mask _ j (by simp) hj hb, test_bit_replicate_zero]
  simp

theorem parseHexPairs_format : ∀ (bytes : List Nat),
    (∀ b ∈ bytes, b < 256) →
    Hex.parseHexPairs ((bytes.map Hex.hexByte).flatten) = some bytes := by
  intro bytes
  induction bytes with
  | nil => intro _; rfl
  | cons b bs ih =>
    intro h
    have hb : b < 256 := h b (by simp)
    simp only [List.map_cons, List.flatten_cons, Hex.hexByte,
      List.cons_append, List.nil_append]
    unfold Hex.parseHexPairs
    rw [parseHexDigit_hexDigit (by omega : b / 16 < 16),
      parseHexDigit_hexDigit (by omega : b % 16 < 16),
      ih fun x hx => h x (by simp [hx])]
    have hbb : 16 * (b / 16) + b % 16 = b := by omega
    simp [hbb]

theorem hex_decode_format (mask : List Nat) (hb : ∀ i ∈ mask, i < 256) :
    Hex.decode_mask (Hex.format_mask (Hex.normalise_mask mask)) =
      some ((List.range 256).filter fun i => decide (i ∈ mask)) := by
  unfold Hex.decode_mask Hex.format_mask
  have hbound : ∀ b ∈ Hex.normalise_mask mask, b < 256 := by
    apply foldl_set_bit_bound
    intro b hbm
    rw [List.eq_of_mem_replicate hbm]
    omega
  rw [parseHexPairs_format _
    fun b hbr => hbound b (List.mem_reverse.mp hbr)]
  simp only [Option.map_some', List.reverse_reverse]
  congr 1
  apply List.filter_congr
  intro j hj
  exact test_bit_normalise mask hb (List.mem_range.mp hj)

theorem hex_count_mask (mask : List Nat) (hb : ∀ i ∈ mask, i < 256) :
    Hex.count_mask (Hex.normalise_mask mask) =
      ((List.range 256).filter fun i => decide (i ∈ mask)).length := by
  unfold Hex.count_mask
  congr 1
  apply List.filter_congr
  intro j hj
  exact test_bit_normalise mask hb (List.mem_range.mp hj)

theorem filter_mem_length (mask : List Nat) (hb : ∀ i ∈ mask, i < 256) :
    ((List.range 256).filter fun i => decide (i ∈ mask)).length =
      mask.dedup.length := by
  have hnd : ((List.range 256).filter fun i => decide (i ∈ mask)).Nodup :=
    (List.nodup_range 256).filter _
  have hfs : ((List.range 256).filter fun i => decide (i ∈ mask)).toFinset =
      mask.toFinset := by
    ext j
    simp only [List.mem_toFinset, List.mem_filter, List.mem_range,
      decide_eq_true_eq]
    constructor
    · rintro ⟨_, h⟩
      exact h
    · intro h
      exact ⟨hb j h, h⟩
  calc ((List.range 256).filter fun i => decide (i ∈ mask)).length
      = ((List.range 256).filter fun i =>
          decide (i ∈ mask)).toFinset.card :=
        (List.toFinset_card_of_nodup hnd).symm
    _ = mask.toFinset.card := by rw [hfs]
    _ = mask.dedup.length := List.card_toFinset mask

/-! ## Claim C5 -/

/-- C5: for every non-empty list of channel ids drawn from `[0, 255]`,
possibly unordered and with duplicates, both mask encoders normalise to the
sorted deduplicated set, report a count equal to the number of distinct
ids, and produce an encoding — the comma-separated range list of
`falib/falib.py`, and the 64-hex-digit bitmask of `falib.py` — that the
(spec-modelled) decoder maps back to exactly the same set, independently of
input order and duplicates: the range decoder returns the sorted
deduplicated list itself, the bitmask decoder the ascending list of ids
whose bit is set, and each has the same members as the input. -/
theorem mask_encode_decode_roundtrip (mask : List Nat) (hne : mask ≠ [])
    (hb : ∀ i ∈ mask, i ≤ 255) :
    (format_mask mask).1 = mask.dedup.length ∧
    decode_mask (format_mask mask).2 = some (mask.toFinset.sort (· ≤ ·)) ∧
    (∀ j, j ∈ mask.toFinset.sort (· ≤ ·) ↔ j ∈ mask) ∧
    Hex.count_mask (Hex.normalise_mask mask) = mask.dedup.length ∧
    Hex.decode_mask (Hex.format_mask (Hex.normalise_mask mask)) =
      some ((List.range 256).filter fun i => decide (i ∈ mask)) ∧
    (∀ j, j ∈ (List.range 256).filter (fun i => decide (i ∈ mask)) ↔
      j ∈ mask) := by
  have hb' : ∀ i ∈ mask, i < 256 := fun i hi => by
    have := hb i hi
    omega
  have hmemsort : ∀ j, j ∈ mask.toFinset.sort (· ≤ ·) ↔ j ∈ mask := by
    intro j
    rw [Finset.mem_sort, List.mem_toFinset]
  have hmemfilter : ∀ j,
      j ∈ (List.range 256).filter (fun i => decide (i ∈ mask)) ↔
        j ∈ mask := by
    intro j
    rw [List.mem_filter, List.mem_range]
    simp only [decide_eq_true_eq]
    constructor
    · rintro ⟨_, h⟩
      exact h
    · intro h
      exact ⟨hb' j h, h⟩
  cases hs : mask.toFinset.sort (· ≤ ·) with
  | nil =>
    exfalso
    have hcard : mask.toFinset.card = 0 := by
      rw [← Finset.length_sort (α := Nat) (· ≤ ·), hs]
      rfl
    have := (List.toFinset_eq_empty_iff mask).mp (Finset.card_eq_zero.mp hcard)
    exact hne this
  | cons m0 rest =>
    have hsortmem : ∀ j ∈ m0 :: rest, j < 256 := by
      intro j hj
      exact hb' j ((hmemsort j).mp (hs ▸ hj))
    have hm0 : m0 < 256 := hsortmem m0 (by simp)
    have hrest : ∀ i ∈ rest, i < 256 :=
      fun i hi => hsortmem i (by simp [hi])
    have hfmt : format_mask mask =
        ((m0 :: rest).length, joinComma (ranges_loop m0 m0 rest)) := by
      unfold format_mask
      rw [hs]
    have hcount : (m0 :: rest).length = mask.dedup.length := by
      rw [← hs, Finset.length_sort (α := Nat) (· ≤ ·),
        List.card_toFinset]
    obtain ⟨ys, hys, hflat⟩ :=
      decode_ranges_loop rest m0 m0 hm0 hm0 le_rfl hrest
    have hdec : decode_mask (joinComma (ranges_loop m0 m0 rest)) =
        some (m0 :: rest) := by
      unfold decode_mask
      rw [splitOnChar_joinComma _ (ranges_loop_ne_nil rest m0 m0)
        (ranges_loop_tokens rest m0 m0 hm0 hm0 hrest), hys]
      simp only [Option.map_some']
      rw [hflat]
      congr 1
      have h1 : m0 + 1 - m0 = 1 := by omega
      rw [h1, List.range'_one]
      rfl
    refine ⟨?_, ?_, hs ▸ hmemsort, ?_, hex_decode_format mask hb',
      hmemfilter⟩
    · rw [hfmt]
      exact hcount
    · rw [hfmt]
      exact hdec
    · rw [hex_count_mask mask hb', filter_mem_length mask hb']

/-- Witness for C5 at the concrete mask `[3, 1, 2, 2, 250]` (unordered,
with a duplicate). -/
theorem mask_encode_decode_roundtrip_witness :
    (format_mask [3, 1, 2, 2, 250]).1 = [3, 1, 2, 2, 250].dedup.length ∧
    decode_mask (format_mask [3, 1, 2, 2, 250]).2 =
      some ([3, 1, 2, 2, 250].toFinset.sort (· ≤ ·)) ∧
    (∀ j, j ∈ [3, 1, 2, 2, 250].toFinset.sort (· ≤ ·) ↔
      j ∈ [3, 1, 2, 2, 250]) ∧
    Hex.count_mask (Hex.normalise_mask [3, 1, 2, 2, 250]) =
      [3, 1, 2, 2, 250].dedup.length ∧
    Hex.decode_mask (Hex.format_mask (Hex.normalise_mask [3, 1, 2, 2, 250])) =
      some ((List.range 256).filter fun i => decide (i ∈ [3, 1, 2, 2, 250])) ∧
    (∀ j, j ∈ (List.range 256).filter
        (fun i => decide (i ∈ [3, 1, 2, 2, 250])) ↔ j ∈ [3, 1, 2, 2, 250]) :=
  mask_encode_decode_roundtrip [3, 1, 2, 2, 250] (by decide) (by decide)

end FaArchiver
